import Mathlib

/-!
Verification of the grayscale morphological reconstruction routine of
`src/python/cucim/src/cucim/skimage/morphology/grayreconstruct.py`.

The pipeline is embedded shallowly:

* n-dimensional arrays are flat integer lists together with a shape list;
  multi-index/flat-index conversions mirror numpy's row-major layout,
* the seed/mask interleaved padded buffer, the neighbor flat-offset list,
  the argsort-based doubly linked traversal list and the validation chain
  are translated from the source,
* `rank_order` (imported from `cucim.skimage.filters._rank_order`, not part
  of the sources at hand) and `reconstruction_loop` (imported from
  scikit-image) are modelled from the specification (sections 4.2 and 4.4),
* machine floats are abstracted to `Int` values: every claim under study is
  about order relations, which a linear order models exactly.
-/

namespace GrayRec

/-! ## Total list access helpers

The Cython loop indexes raw pointers with signed integers; reads outside the
allocated range are modelled as returning a neutral default (0 for ranks,
-1 for links) and writes outside the range as no-ops.  The development shows
that the guarded branches of the loop never depend on such accesses. -/

def getRN (l : List ℕ) (i : ℕ) : ℕ := l.getD i 0

def getR (l : List ℕ) (i : ℤ) : ℕ := if 0 ≤ i then getRN l i.toNat else 0

def getL (l : List ℤ) (i : ℤ) : ℤ := if 0 ≤ i then l.getD i.toNat (-1) else -1

def getV (l : List ℤ) (i : ℕ) : ℤ := l.getD i 0

def setR (l : List ℕ) (i : ℤ) (v : ℕ) : List ℕ :=
  if 0 ≤ i then l.set i.toNat v else l

def setL (l : List ℤ) (i : ℤ) (v : ℤ) : List ℤ :=
  if 0 ≤ i then l.set i.toNat v else l

/-! ## Row-major index arithmetic

`flat sh cs` is the flat index of multi-coordinates `cs` in shape `sh`;
`unflat` is its inverse; `izflat` is the same linear form over `ℤ`, used for
the signed neighbor deltas computed from the footprint (the `nb_strides`
array of the source). -/

def flat : List ℕ → List ℕ → ℕ
  | _, [] => 0
  | [], _ => 0
  | _ :: sh, c :: cs => c * sh.prod + flat sh cs

def unflat : List ℕ → ℕ → List ℕ
  | [], _ => []
  | _ :: sh, j => (j / sh.prod) :: unflat sh (j % sh.prod)

def izflat : List ℕ → List ℤ → ℤ
  | _, [] => 0
  | [], _ => 0
  | _ :: sh, c :: cs => c * (sh.prod : ℤ) + izflat sh cs

/-- Componentwise window test: `offv ≤ cs < offv + innerSh` on every axis. -/
def inWin : List ℕ → List ℕ → List ℕ → Bool
  | o :: os, s :: ss, c :: cs =>
      decide (o ≤ c) && decide (c < o + s) && inWin os ss cs
  | _, _, _ => true

/-- The inner (non padding) flat position of padded position `j`, when `j`
falls inside the window of the original image; `none` on the pad border. -/
def innerIdx (paddedSh innerSh offv : List ℕ) (j : ℕ) : Option ℕ :=
  let cs := unflat paddedSh j
  if inWin offv innerSh cs then
    some (flat innerSh (List.zipWith (fun c o => c - o) cs offv))
  else none

/-- The padded flat position corresponding to inner flat position `j`
(the `inside_slices` window of the source). -/
def embed (paddedSh innerSh offv : List ℕ) (j : ℕ) : ℕ :=
  flat paddedSh (List.zipWith (fun o c => o + c) offv (unflat innerSh j))

/-! ## Sorting

Insertion sorts with full control over the tie rule: the spec leaves the
tie-break among equal values open ("arbitrary but fixed"), so the model uses
value order with flat index as tiebreaker, a consistent stable rule. -/

def insLe (le : ℕ → ℕ → Bool) (x : ℕ) : List ℕ → List ℕ
  | [] => [x]
  | y :: t => if le x y then x :: y :: t else y :: insLe le x t

def sortLe (le : ℕ → ℕ → Bool) : List ℕ → List ℕ
  | [] => []
  | x :: t => insLe le x (sortLe le t)

def insZ (x : ℤ) : List ℤ → List ℤ
  | [] => [x]
  | y :: t => if x ≤ y then x :: y :: t else y :: insZ x t

def sortZ : List ℤ → List ℤ
  | [] => []
  | x :: t => insZ x (sortZ t)

/-- Removes consecutive duplicates; on a sorted list this yields the strictly
increasing list of distinct values. -/
def dedupS : List ℤ → List ℤ
  | [] => []
  | [a] => [a]
  | a :: b :: t => if a = b then dedupS (b :: t) else a :: dedupS (b :: t)

/-! ## Rank transform -/

/-- Modelled from the spec: section 4.2 Rank Transform.  The routine
`rank_order` is imported from `cucim.skimage.filters._rank_order`, which is
not among the sources at hand.  Per the spec it returns a value map "ordered
such that value_map[rank[i]] == original value at i" with dense integer
ranks, ties assigned consistently: the value map is the sorted list of
distinct buffer values. -/
def valueMap (l : List ℤ) : List ℤ := dedupS (sortZ l)

/-- Modelled from the spec: the dense rank of value `v` relative to buffer
`l` is the number of distinct buffer values strictly below `v`. -/
def rankOf (l : List ℤ) (v : ℤ) : ℕ :=
  (valueMap l).countP (fun w => decide (w < v))

/-- Modelled from the spec: the pair (rank array, value map) of section 4.2. -/
def rank_order (l : List ℤ) : List ℕ × List ℤ :=
  (l.map (rankOf l), valueMap l)

/-! ## Data model: dtypes and arrays -/

inductive DType
  | bool
  | int8
  | int16
  | int32
  | int64
  | uint8
  | uint16
  | uint32
  | uint64
  | float16
  | float32
  | float64
  deriving DecidableEq

/-- Kind tag: 0 = boolean, 1 = unsigned, 2 = signed, 3 = floating. -/
def DType.kind : DType → ℕ
  | .bool => 0
  | .uint8 | .uint16 | .uint32 | .uint64 => 1
  | .int8 | .int16 | .int32 | .int64 => 2
  | .float16 | .float32 | .float64 => 3

def DType.bits : DType → ℕ
  | .bool => 8
  | .int8 => 8
  | .uint8 => 8
  | .int16 => 16
  | .uint16 => 16
  | .float16 => 16
  | .int32 => 32
  | .uint32 => 32
  | .float32 => 32
  | .int64 => 64
  | .uint64 => 64
  | .float64 => 64

def signedOfBits : ℕ → DType
  | 8 => .int8
  | 16 => .int16
  | 32 => .int32
  | _ => .int64

def unsignedOfBits : ℕ → DType
  | 8 => .uint8
  | 16 => .uint16
  | 32 => .uint32
  | _ => .uint64

def floatOfBits : ℕ → DType
  | 16 => .float16
  | 32 => .float32
  | _ => .float64

/-- Bits of the smallest float able to hold every integer of the given
signed width exactly (numpy safe-casting rule, saturating at 64). -/
def floatBitsForInt : ℕ → ℕ
  | 8 => 16
  | 16 => 32
  | _ => 64

/-- Model of `numpy.promote_types` on the numeric dtypes above, following
numpy's documented safe-casting promotion table. -/
def promote_types (a b : DType) : DType :=
  if a = b then a
  else if a.kind = 0 then b
  else if b.kind = 0 then a
  else if a.kind = 3 ∧ b.kind = 3 then floatOfBits (max a.bits b.bits)
  else if a.kind = 3 then floatOfBits (max a.bits (floatBitsForInt b.bits))
  else if b.kind = 3 then floatOfBits (max b.bits (floatBitsForInt a.bits))
  else if a.kind = b.kind then
    (if a.kind = 1 then unsignedOfBits (max a.bits b.bits)
     else signedOfBits (max a.bits b.bits))
  else
    -- one signed, one unsigned
    let sb := if a.kind = 2 then a.bits else b.bits
    let ub := if a.kind = 1 then a.bits else b.bits
    if ub < sb then signedOfBits sb
    else if ub = 64 then .float64
    else signedOfBits (2 * ub)

structure NDArr where
  shape : List ℕ
  data : List ℤ
  dtype : DType
  deriving DecidableEq

structure NDArrB where
  shape : List ℕ
  data : List Bool
  deriving DecidableEq

structure NDArrI where
  shape : List ℕ
  data : List ℤ
  deriving DecidableEq

def WfB (f : NDArrB) : Prop := f.data.length = f.shape.prod

/-! ## Errors

Taxonomy of the spec's section 7, plus the concrete failures the code runs
into on inputs the spec does not name: an empty seed makes the `cp.min`
(resp. `cp.max`) reduction raise, a multi element row of an n-D offset makes
the chained comparison raise numpy's ambiguous-truth-value error, an offset
entry count differing from the footprint rank makes the center-crossing
indexing raise IndexError, and a footprint whose rank differs from the
image's makes the padded-buffer assignment raise a broadcast error. -/
inductive RecError
  | shapeMismatch
  | invalidSeedMask
  | invalidFootprint
  | invalidOffset
  | ambiguousOffset
  | invalidMethod
  | emptySeed
  | unsupportedOffsetShape
  | unsupportedFootprintRank
  deriving DecidableEq

/-! ## Validation helpers -/

def anyGT (a b : List ℤ) : Bool :=
  (List.zipWith (fun x y => decide (y < x)) a b).any id

def anyLT (a b : List ℤ) : Bool :=
  (List.zipWith (fun x y => decide (x < y)) a b).any id

def minZ : List ℤ → ℤ
  | [] => 0
  | a :: t => t.foldl min a

def maxZ : List ℤ → ℤ
  | [] => 0
  | a :: t => t.foldl max a

/-- Default footprint: the all-true hypercube `np.ones([3] * seed.ndim)`. -/
def onesFootprint (nd : ℕ) : NDArrB :=
  ⟨List.replicate nd 3, List.replicate (List.replicate nd 3).prod true⟩

/-- The forced clearing of the footprint center,
`footprint[tuple(slice(d, d + 1) for d in offset)] = False`. -/
def clearCenter (fp : NDArrB) (offv : List ℕ) : NDArrB :=
  ⟨fp.shape,
   (List.range fp.shape.prod).map
     (fun j => if unflat fp.shape j = offv then false else fp.data.getD j false)⟩

/-- First-axis slices of an offset array: iterating a 1-D numpy array yields
scalars (singleton rows here), an n-D one yields its subarrays. -/
def rowsOf (o : NDArrI) : List (List ℤ) :=
  if o.shape.length ≤ 1 then o.data.map (fun v => [v])
  else
    (List.range (o.shape.headD 0)).map
      (fun r => (o.data.drop (r * o.shape.tail.prod)).take o.shape.tail.prod)

/-- The list comprehension `[(0 <= o < d) for o, d in zip(offset,
footprint.shape)]`: each row must collapse to a single scalar for the
chained comparison to produce a truth value, otherwise numpy raises. -/
def checkRows : List (List ℤ × ℕ) → Except RecError (List Bool)
  | [] => .ok []
  | (row, d) :: t =>
      match row with
      | [e] => (checkRows t).map
          (fun bs => (decide (0 ≤ e) && decide (e < (d : ℤ))) :: bs)
      | _ => .error .ambiguousOffset

/-- Offset resolution and validation, lines 159-169 of the source: a missing
offset requires odd extents and defaults to the geometric center; an
explicit offset must match the footprint's ndim and fall inside the
footprint bounds on every zipped axis. -/
def resolveOffset (fp : NDArrB) (offset : Option NDArrI) : Except RecError (List ℕ) :=
  match offset with
  | none =>
      if fp.shape.all (fun d => d % 2 = 1) then .ok (fp.shape.map (fun d => d / 2))
      else .error .invalidFootprint
  | some o =>
      if o.shape.length ≠ fp.shape.length then .error .invalidOffset
      else
        match checkRows (List.zip (rowsOf o) fp.shape) with
        | .error e => .error e
        | .ok bs =>
            if bs.all id then .ok (o.data.map Int.toNat)
            else .error .invalidOffset

/-! ## Footprint neighbor deltas

`np.mgrid[[slice(-o, d - o) ...]][:, footprint].transpose()` lists the
coordinates (relative to the center) of the active footprint cells in
row-major order; dotting each with the padded strides gives the signed flat
deltas `nb_strides`. -/
def fpDeltas (fpc : NDArrB) (offv : List ℕ) (paddedSh : List ℕ) : List ℤ :=
  ((List.range fpc.shape.prod).filter (fun j => fpc.data.getD j false)).map
    (fun j =>
      izflat paddedSh
        (List.zipWith (fun (c o : ℕ) => (c : ℤ) - (o : ℤ))
          (unflat fpc.shape j) offv))

/-- The interleaved padded buffer of lines 190-192: channel 0 carries the
seed embedded in a pad-filled border, channel 1 the mask likewise. -/
def buildImages (paddedSh offv : List ℕ) (innerSh : List ℕ)
    (seedData maskData : List ℤ) (pad : ℤ) : List ℤ :=
  let P := paddedSh.prod
  (List.range (2 * P)).map (fun x =>
    if x < P then
      match innerIdx paddedSh innerSh offv x with
      | some k => getV seedData k
      | none => pad
    else
      match innerIdx paddedSh innerSh offv (x - P) with
      | some k => getV maskData k
      | none => pad)

/-! ## The propagation engine -/

structure LoopState where
  rank : List ℕ
  prev : List ℤ
  next : List ℤ
  cur : ℤ
  deriving DecidableEq

/-- Modelled from the spec: one neighbor visit of section 4.4's downhill
filter (the body of scikit-image's `reconstruction_loop`, which is not among
the sources at hand).  The visited position `p` (rank `rp`) propagates into
neighbor `q = p + d` when `q` ranks strictly below both `p` and `q`'s
mask-channel cap; `q` is raised to the smaller of the two and relinked
adjacent to the position whose rank now matches (the mask-channel cell when
the cap was binding, otherwise `p` itself). -/
def pushOne (N : ℕ) (rp : ℕ) (p : ℕ) (s : LoopState) (d : ℤ) : LoopState :=
  let q : ℤ := (p : ℤ) + d
  let rq := getR s.rank q
  if rq < rp then
    let mr := getR s.rank (q + (N : ℤ))
    if rq < mr then
      let nr := if mr < rp then mr else rp
      let link : ℤ := if mr < rp then q + (N : ℤ) else (p : ℤ)
      let rank1 := setR s.rank q nr
      let np := getL s.prev q
      let nn := getL s.next q
      let next1 := if np ≠ -1 then setL s.next np nn else s.next
      let prev1 := if nn ≠ -1 then setL s.prev nn np else s.prev
      let ln := getL next1 link
      let next2 := setL next1 q ln
      let prev2 := setL prev1 q link
      let prev3 := if ln ≠ -1 then setL prev2 ln q else prev2
      let next3 := setL next2 link q
      ⟨rank1, prev3, next3, s.cur⟩
    else s
  else s

/-- Modelled from the spec: one traversal-list visit of section 4.4.  Only
seed-channel positions (`p < image_stride`) propagate; the walk then follows
`next`, with -1 as the list terminator. -/
def step (N : ℕ) (strides : List ℤ) (s : LoopState) : LoopState :=
  if s.cur = -1 then s
  else
    let p := s.cur.toNat
    let s1 := if p < N then strides.foldl (pushOne N (getR s.rank (p : ℤ)) p) s else s
    ⟨s1.rank, s1.prev, s1.next, getL s1.next (p : ℤ)⟩

def iterate (N : ℕ) (strides : List ℤ) : ℕ → LoopState → LoopState
  | 0, s => s
  | n + 1, s => iterate N strides n (step N strides s)

/-! ## Traversal list construction -/

/-- Successor of `i` in the ordering list (-1 at the tail or when absent). -/
def afterL : List ℕ → ℕ → ℤ
  | [], _ => -1
  | [_], _ => -1
  | a :: b :: t, i => if a = i then (b : ℤ) else afterL (b :: t) i

/-- Predecessor of `i` in the ordering list (-1 at the head or when absent). -/
def beforeL : List ℕ → ℕ → ℤ
  | [], _ => -1
  | [_], _ => -1
  | a :: b :: t, i => if b = i then (a : ℤ) else beforeL (b :: t) i

/-- Total work remaining: the summed headroom between each seed-channel rank
and its mask-channel cap.  Every propagation strictly decreases it. -/
def deficit (N : ℕ) (r : List ℕ) : ℕ :=
  ∑ i ∈ Finset.range N, (getR r ((i : ℤ) + (N : ℤ)) - getR r (i : ℤ))

/-- Head of a traversal list as a link value (-1 for the empty list). -/
def headI : List ℕ → ℤ
  | [] => -1
  | a :: _ => (a : ℤ)

/-- The argsort comparison of line 224: ascending buffer value, stable flat
index tie-break. -/
def imgLe (images : List ℤ) (i j : ℕ) : Bool :=
  if getV images i < getV images j then true
  else if getV images i = getV images j then decide (i ≤ j) else false

/-- Insert `q` immediately after the first occurrence of `l` (at the end
when `l` is absent): the abstract meaning of the loop's relink writes. -/
def insertAfterL : List ℕ → ℕ → ℕ → List ℕ
  | [], _, q => [q]
  | a :: t, l, q => if a = l then a :: q :: t else a :: insertAfterL t l q

/-- Modelled from numpy's unary minus on an array of dtype `dt`: the
negations of lines 235-236 are computed in the promoted images dtype of
line 189.  Floating dtypes negate exactly; signed integers wrap in two's
complement (the dtype minimum negates to itself); unsigned integers negate
modulo `2 ^ bits` (only zero is a fixed point of the intended reversal).
Unary minus on a bool array raises `TypeError` in numpy, so no completed
erosion run reaches the bool case; the fallthrough keeps the function
total, and `NegExact` excludes bool buffers. -/
def npNeg (dt : DType) (x : ℤ) : ℤ :=
  if dt.kind = 1 then (-x) % (2 ^ dt.bits)
  else if dt.kind = 2 then
    ((-x + 2 ^ (dt.bits - 1)) % 2 ^ dt.bits) - 2 ^ (dt.bits - 1)
  else -x

/-- The promoted dtype negates the buffer exactly: the dtype supports unary
minus (numpy raises on bool) and neither a buffer value nor its negation
wraps.  Every float buffer qualifies; a signed-integer buffer qualifies
when no value sits at the dtype minimum; an unsigned buffer qualifies only
when it is identically zero. -/
def NegExact (dt : DType) (l : List ℤ) : Prop :=
  dt.kind ≠ 0 ∧ ∀ v ∈ l, npNeg dt v = -v ∧ npNeg dt (-v) = v

instance negExact_decidable (dt : DType) (l : List ℤ) :
    Decidable (NegExact dt l) :=
  inferInstanceAs (Decidable
    (dt.kind ≠ 0 ∧ ∀ v ∈ l, npNeg dt v = -v ∧ npNeg dt (-v) = v))

/-- Everything lines 175-242 of the source derive from the validated inputs
before entering the loop. -/
structure Setup where
  innerSh : List ℕ
  paddedSh : List ℕ
  offv : List ℕ
  P : ℕ
  strides : List ℤ
  images : List ℤ
  ibuf : List ℤ
  vmapI : List ℤ
  vmapF : List ℤ
  rank0 : List ℕ
  sorted : List ℕ
  s0 : LoopState
  fuel : ℕ

def mkSetup (seed mask : NDArr) (isDil : Bool) (fpc : NDArrB) (offv : List ℕ)
    (pad : ℤ) : Setup :=
  let innerSh := seed.shape
  let paddedSh := List.zipWith (fun s1 s2 => s1 + s2 - 1) innerSh fpc.shape
  let P := paddedSh.prod
  let strides := fpDeltas fpc offv paddedSh
  let images := buildImages paddedSh offv innerSh seed.data mask.data pad
  let ibuf := if isDil then images
    else images.map (npNeg (promote_types seed.dtype mask.dtype))
  let vmapI := valueMap ibuf
  let vmapF := if isDil then vmapI
    else vmapI.map (npNeg (promote_types seed.dtype mask.dtype))
  let rank0 := ibuf.map (rankOf ibuf)
  let ascending := sortLe (imgLe images) (List.range (2 * P))
  let sorted := if isDil then ascending.reverse else ascending
  let prev0 := (List.range (2 * P)).map (fun x => beforeL sorted x)
  let next0 := (List.range (2 * P)).map (fun x => afterL sorted x)
  let start : ℤ := headI sorted
  let s0 : LoopState := ⟨rank0, prev0, next0, start⟩
  let fuel := (deficit P rank0 + 1) * (2 * P + 1) + 1
  ⟨innerSh, paddedSh, offv, P, strides, images, ibuf, vmapI, vmapF, rank0,
   sorted, s0, fuel⟩

/-! ## The integer width selection of lines 193-203 -/

/-- Model of `np.min_scalar_type` on a negative value: the width of the
narrowest signed integer dtype containing it. -/
def min_scalar_type_bits_neg (v : ℤ) : ℕ :=
  if -128 ≤ v then 8
  else if -32768 ≤ v then 16
  else if -(2 ^ 31) ≤ v then 32
  else 64

/-- The signed index dtype width the source selects: int32 unconditionally
on the legacy scikit-image (< 0.20) path, otherwise
`np.result_type(np.min_scalar_type(-isize), np.int32)`. -/
def signedIntBits (oldPyx : Bool) (isize : ℕ) : ℕ :=
  if oldPyx then 32 else max (min_scalar_type_bits_neg (-(isize : ℤ))) 32

/-- The flat size of the interleaved padded buffer, `images.size`. -/
def reconISize (seed : NDArr) (fpc : NDArrB) : ℕ :=
  2 * (List.zipWith (fun s1 s2 => s1 + s2 - 1) seed.shape fpc.shape).prod

/-! ## The full routine -/

/-- The loop output mapped back through the value map and sliced to the
original window (lines 238-249 of the source). -/
def recOut (seed mask : NDArr) (isDil : Bool) (fpc : NDArrB) (offv : List ℕ)
    (pad : ℤ) : NDArr :=
  let st := mkSetup seed mask isDil fpc offv pad
  let fin := iterate st.P st.strides st.fuel st.s0
  ⟨seed.shape,
   (List.range seed.shape.prod).map
     (fun j => getV st.vmapF
       (getR fin.rank ((embed st.paddedSh seed.shape offv j : ℕ) : ℤ))),
   promote_types seed.dtype mask.dtype⟩

/-- The stages from dtype promotion (line 189) to the sliced result
(line 249), for validated inputs. -/
def recBody (seed mask : NDArr) (isDil : Bool) (fpc : NDArrB) (offv : List ℕ)
    (pad : ℤ) : Except RecError NDArr :=
  if fpc.shape.length ≠ seed.shape.length then .error .unsupportedFootprintRank
  else .ok (recOut seed mask isDil fpc offv pad)

/-- Footprint defaulting and copying, lines 152-157 of the source. -/
def fpOf (seed : NDArr) (footprint : Option NDArrB) : NDArrB :=
  match footprint with
  | none => onesFootprint seed.shape.length
  | some f => ⟨f.shape, f.data⟩

/-- The public routine, lines 24-249 of the source: shape assertion,
method-conditional seed/mask ordering scan, footprint defaulting and
copying, offset resolution, center crossing, pad value and method
dispatch, then the propagation engine and result extraction. -/
def reconstruction (seed mask : NDArr) (method : String)
    (footprint : Option NDArrB) (offset : Option NDArrI) :
    Except RecError NDArr :=
  if seed.shape ≠ mask.shape then .error .shapeMismatch
  else if method = "dilation" ∧ anyGT seed.data mask.data then .error .invalidSeedMask
  else if method = "erosion" ∧ anyLT seed.data mask.data then .error .invalidSeedMask
  else
    let fp : NDArrB := fpOf seed footprint
    match resolveOffset fp offset with
    | .error e => .error e
    | .ok offv =>
        if offv.length ≠ fp.shape.length then .error .unsupportedOffsetShape
        else
          let fpc := clearCenter fp offv
          if method = "dilation" then
            if seed.data.isEmpty then .error .emptySeed
            else recBody seed mask true fpc offv (minZ seed.data)
          else if method = "erosion" then
            if seed.data.isEmpty then .error .emptySeed
            else recBody seed mask false fpc offv (maxZ seed.data)
          else .error .invalidMethod

/-- Level A loop invariant, relative to the initial rank buffer: ranks only
grow, the mask channel never changes, and every seed-channel rank stays at or
below its mask-channel cap. -/
def RankInv (N : ℕ) (init : List ℕ) (s : LoopState) : Prop :=
  s.rank.length = 2 * N ∧
  (∀ i : ℕ, i < 2 * N → getRN init i ≤ getRN s.rank i) ∧
  (∀ i : ℕ, N ≤ i → i < 2 * N → getRN s.rank i = getRN init i) ∧
  (∀ i : ℕ, i < N → getRN s.rank i ≤ getRN s.rank (i + N))

/-! ## Heap model for the footprint argument

Lines 152-172 viewed with explicit array identity: `astype(bool, copy=True)`
allocates a fresh array, and the center-crossing write mutates only that
fresh allocation, never the caller's argument. -/

structure FpHeap where
  arrays : List NDArrB
  deriving DecidableEq

def heapAlloc (h : FpHeap) (a : NDArrB) : FpHeap × ℕ :=
  (⟨h.arrays ++ [a]⟩, h.arrays.length)

def heapSet (h : FpHeap) (r : ℕ) (a : NDArrB) : FpHeap :=
  ⟨h.arrays.set r a⟩

def heapGet (h : FpHeap) (r : ℕ) : NDArrB :=
  h.arrays.getD r ⟨[], []⟩

/-- The footprint preparation of lines 152-172 as a store transformer: the
default case allocates `np.ones(...)`, the explicit case allocates the
`astype(bool, copy=True)` copy of the argument; the center-crossing
assignment then writes through the returned reference only. -/
def setupFootprintHeap (h : FpHeap) (fpArg : Option ℕ) (seedNd : ℕ)
    (offv : List ℕ) : FpHeap × ℕ :=
  let ar := match fpArg with
    | none => heapAlloc h (onesFootprint seedNd)
    | some a => heapAlloc h (heapGet h a)
  (heapSet ar.1 ar.2 (clearCenter (heapGet ar.1 ar.2) offv), ar.2)

/-! ## Lemmas: list access -/

theorem getRN_eq_getD (l : List ℕ) (i : ℕ) : getRN l i = l.getD i 0 := rfl

theorem getR_neg (l : List ℕ) (i : ℤ) (h : i < 0) : getR l i = 0 := by
  simp [getR, not_le.mpr h]

theorem length_setR (l : List ℕ) (i : ℤ) (v : ℕ) : (setR l i v).length = l.length := by
  unfold setR; split <;> simp

theorem perm_insZ (x : ℤ) (l : List ℤ) : (insZ x l).Perm (x :: l) := by
  induction l with
  | nil => exact List.Perm.refl _
  | cons y t ih =>
      rw [insZ]
      split
      · exact List.Perm.refl _
      · exact (ih.cons y).trans (List.Perm.swap x y t)

theorem perm_sortZ (l : List ℤ) : (sortZ l).Perm l := by
  induction l with
  | nil => exact List.Perm.refl _
  | cons x t ih => exact (perm_insZ x (sortZ t)).trans (ih.cons x)

theorem mem_sortZ (z : ℤ) (l : List ℤ) : z ∈ sortZ l ↔ z ∈ l :=
  (perm_sortZ l).mem_iff

theorem pairwise_insZ (x : ℤ) (l : List ℤ) (hl : l.Pairwise (· ≤ ·)) :
    (insZ x l).Pairwise (· ≤ ·) := by
  induction l with
  | nil => simp [insZ]
  | cons y t ih =>
      rw [insZ]
      rcases List.pairwise_cons.mp hl with ⟨hy, ht⟩
      split
      · rename_i hxy
        refine List.pairwise_cons.mpr ⟨?_, hl⟩
        intro z hz
        rcases List.mem_cons.mp hz with rfl | hz
        · exact hxy
        · exact le_trans hxy (hy z hz)
      · rename_i hxy
        have hyx : y ≤ x := le_of_not_le hxy
        refine List.pairwise_cons.mpr ⟨?_, ih ht⟩
        intro z hz
        rcases List.mem_cons.mp ((perm_insZ x t).mem_iff.mp hz) with rfl | hz
        · exact hyx
        · exact hy z hz

theorem pairwise_sortZ (l : List ℤ) : (sortZ l).Pairwise (· ≤ ·) := by
  induction l with
  | nil => simp [sortZ]
  | cons x t ih => exact pairwise_insZ x (sortZ t) ih

theorem mem_dedupS (x : ℤ) (l : List ℤ) : x ∈ dedupS l ↔ x ∈ l := by
  induction l with
  | nil => simp [dedupS]
  | cons a t ih =>
      cases t with
      | nil => simp [dedupS]
      | cons b t =>
          rw [dedupS]
          split
          · rename_i hab
            subst hab
            rw [ih]
            simp
          · simp only [List.mem_cons] at ih ⊢
            rw [ih]

theorem pairwise_lt_dedupS (l : List ℤ) (hl : l.Pairwise (· ≤ ·)) :
    (dedupS l).Pairwise (· < ·) := by
  induction l with
  | nil => simp [dedupS]
  | cons a t ih =>
      cases t with
      | nil => simp [dedupS]
      | cons b t =>
          rcases List.pairwise_cons.mp hl with ⟨ha, hbt⟩
          rw [dedupS]
          split
          · exact ih hbt
          · rename_i hab
            refine List.pairwise_cons.mpr ⟨?_, ih hbt⟩
            intro z hz
            have hz2 : z ∈ b :: t := (mem_dedupS z (b :: t)).mp hz
            have hazle : a ≤ z := ha z hz2
            rcases List.mem_cons.mp hz2 with rfl | hz3
            · exact lt_of_le_of_ne hazle hab
            · have hbz : b ≤ z := (List.pairwise_cons.mp hbt).1 z hz3
              have : a < b := lt_of_le_of_ne (ha b (List.mem_cons_self _ _)) hab
              omega

/-! ## Lemmas: rank transform -/

theorem pairwise_lt_valueMap (l : List ℤ) : (valueMap l).Pairwise (· < ·) :=
  pairwise_lt_dedupS (sortZ l) (pairwise_sortZ l)

theorem mem_valueMap (v : ℤ) (l : List ℤ) : v ∈ valueMap l ↔ v ∈ l :=
  (mem_dedupS v (sortZ l)).trans (mem_sortZ v l)

theorem getV_mem (l : List ℤ) (i : ℕ) (h : i < l.length) : getV l i ∈ l := by
  rw [getV, List.getD, List.get?_eq_getElem?, List.getElem?_eq_getElem h,
    Option.getD_some]
  exact List.getElem_mem _

theorem getV_cons_zero (a : ℤ) (t : List ℤ) : getV (a :: t) 0 = a := rfl

theorem getV_cons_succ (a : ℤ) (t : List ℤ) (k : ℕ) :
    getV (a :: t) (k + 1) = getV t k := rfl

theorem getV_countP_of_mem (M : List ℤ) (hM : M.Pairwise (· < ·)) (v : ℤ)
    (hv : v ∈ M) : getV M (M.countP (fun w => decide (w < v))) = v := by
  induction M with
  | nil => cases hv
  | cons a t ih =>
      rcases List.pairwise_cons.mp hM with ⟨ha, ht⟩
      rcases List.mem_cons.mp hv with rfl | hvt
      · have h0 : t.countP (fun w => decide (w < v)) = 0 := by
          rw [List.countP_eq_zero]
          intro z hz
          simp only [decide_eq_true_eq]
          exact not_lt.mpr (le_of_lt (ha z hz))
        rw [List.countP_cons]
        simp only [decide_eq_true_eq, lt_irrefl, if_false, h0]
        rfl
      · have hav : a < v := ha v hvt
        rw [List.countP_cons]
        simp only [decide_eq_true_eq, hav, if_true]
        rw [getV_cons_succ]
        exact ih ht hvt

theorem countP_lt_mono (M : List ℤ) (v w : ℤ) (hvw : v ≤ w) :
    M.countP (fun z => decide (z < v)) ≤ M.countP (fun z => decide (z < w)) := by
  apply List.countP_mono_left
  intro a _ h
  simp only [decide_eq_true_eq] at h ⊢
  omega

theorem countP_lt_strict (M : List ℤ) (v w : ℤ) (hv : v ∈ M) (hvw : v < w) :
    M.countP (fun z => decide (z < v)) < M.countP (fun z => decide (z < w)) := by
  induction M with
  | nil => cases hv
  | cons a t ih =>
      rw [List.countP_cons, List.countP_cons]
      rcases List.mem_cons.mp hv with rfl | hvt
      · have h1 : (if (decide (v < w) : Bool) = true then 1 else 0) = 1 := by
          simp [hvw]
        have h2 : (if (decide (v < v) : Bool) = true then 1 else 0) = 0 := by
          simp
        have := countP_lt_mono t v w (le_of_lt hvw)
        omega
      · have := ih hvt
        have h3 : (if (decide (a < v) : Bool) = true then 1 else 0) ≤
            (if (decide (a < w) : Bool) = true then 1 else 0) := by
          by_cases h : a < v
          · simp [h, lt_trans h hvw]
          · simp [h]
        omega

theorem rankOf_le_rankOf (l : List ℤ) (v w : ℤ) (h : v ≤ w) :
    rankOf l v ≤ rankOf l w :=
  countP_lt_mono (valueMap l) v w h

theorem rankOf_lt_rankOf (l : List ℤ) (v w : ℤ) (hv : v ∈ l) (h : v < w) :
    rankOf l v < rankOf l w :=
  countP_lt_strict (valueMap l) v w ((mem_valueMap v l).mpr hv) h

theorem rankOf_lt_iff (l : List ℤ) (v w : ℤ) (hv : v ∈ l) (_hw : w ∈ l) :
    rankOf l v < rankOf l w ↔ v < w := by
  constructor
  · intro h
    by_contra hc
    exact absurd (rankOf_le_rankOf l w v (not_lt.mp hc)) (not_le.mpr h)
  · exact rankOf_lt_rankOf l v w hv

theorem getV_valueMap_rankOf (l : List ℤ) (v : ℤ) (hv : v ∈ l) :
    getV (valueMap l) (rankOf l v) = v :=
  getV_countP_of_mem (valueMap l) (pairwise_lt_valueMap l) v
    ((mem_valueMap v l).mpr hv)

theorem countP_getV_of_pairwise (M : List ℤ) (hM : M.Pairwise (· < ·)) (r : ℕ)
    (hr : r < M.length) :
    M.countP (fun w => decide (w < getV M r)) = r := by
  induction M generalizing r with
  | nil => simp at hr
  | cons a t ih =>
      rcases List.pairwise_cons.mp hM with ⟨ha, ht⟩
      cases r with
      | zero =>
          rw [getV_cons_zero, List.countP_cons, List.countP_eq_zero.mpr]
          · simp
          · intro z hz
            simp only [decide_eq_true_eq]
            exact not_lt.mpr (le_of_lt (ha z hz))
      | succ k =>
          have hk : k < t.length := by simpa using hr
          have hmem : getV t k ∈ t := getV_mem t k hk
          rw [getV_cons_succ, List.countP_cons, ih ht k hk]
          simp [ha _ hmem]

theorem rankOf_getV_valueMap (l : List ℤ) (r : ℕ) (hr : r < (valueMap l).length) :
    rankOf l (getV (valueMap l) r) = r :=
  countP_getV_of_pairwise (valueMap l) (pairwise_lt_valueMap l) r hr

/-! ## Lemmas: the Level A loop invariant -/

theorem rankInv_init (N : ℕ) (init : List ℕ) (p n : List ℤ) (c : ℤ)
    (hlen : init.length = 2 * N)
    (hcap : ∀ i : ℕ, i < N → getRN init i ≤ getRN init (i + N)) :
    RankInv N init ⟨init, p, n, c⟩ :=
  ⟨hlen, fun _ _ => le_refl _, fun _ _ _ => rfl, hcap⟩

theorem getV_eq_getElem (l : List ℤ) (i : ℕ) (h : i < l.length) :
    getV l i = l[i] := List.getD_eq_getElem l 0 h

theorem getRN_eq_getElem (l : List ℕ) (i : ℕ) (h : i < l.length) :
    getRN l i = l[i] := List.getD_eq_getElem l 0 h

theorem getV_map_neg (l : List ℤ) (i : ℕ) :
    getV (l.map Neg.neg) i = - getV l i := by
  by_cases h : i < l.length
  · rw [getV_eq_getElem _ _ (by simpa using h), getV_eq_getElem _ _ h,
      List.getElem_map]
  · have h1 : l.length ≤ i := not_lt.mp h
    rw [getV, getV, List.getD, List.getD, List.get?_eq_getElem?,
      List.get?_eq_getElem?, List.getElem?_eq_none (by simpa using h1),
      List.getElem?_eq_none h1]
    simp

theorem getRN_map_of_lt (g : ℤ → ℕ) (l : List ℤ) (i : ℕ) (h : i < l.length) :
    getRN (l.map g) i = g (getV l i) := by
  rw [getRN_eq_getElem _ _ (by simpa using h), getV_eq_getElem _ _ h,
    List.getElem_map]

theorem recBody_ok_inv (seed mask : NDArr) (isDil : Bool) (fpc : NDArrB)
    (offv : List ℕ) (pad : ℤ) (out : NDArr)
    (h : recBody seed mask isDil fpc offv pad = .ok out) :
    fpc.shape.length = seed.shape.length ∧
      out = recOut seed mask isDil fpc offv pad := by
  rw [recBody] at h
  split at h
  case isTrue => cases h
  case isFalse hg =>
    refine ⟨not_ne_iff.mp hg, ?_⟩
    injection h with h
    exact h.symm

theorem reconstruction_ok_inv (seed mask : NDArr) (mth : String)
    (fp : Option NDArrB) (off : Option NDArrI) (out : NDArr)
    (h : reconstruction seed mask mth fp off = .ok out) :
    ∃ offv,
      seed.shape = mask.shape ∧
      resolveOffset (fpOf seed fp) off = .ok offv ∧
      offv.length = (fpOf seed fp).shape.length ∧
      seed.data.isEmpty = false ∧
      ((mth = "dilation" ∧ anyGT seed.data mask.data = false ∧
          recBody seed mask true (clearCenter (fpOf seed fp) offv) offv
            (minZ seed.data) = .ok out) ∨
       (mth = "erosion" ∧ anyLT seed.data mask.data = false ∧
          recBody seed mask false (clearCenter (fpOf seed fp) offv) offv
            (maxZ seed.data) = .ok out)) := by
  rw [reconstruction] at h
  split at h
  case isTrue => cases h
  case isFalse hsh =>
    split at h
    case isTrue => cases h
    case isFalse hdil =>
      split at h
      case isTrue => cases h
      case isFalse hero =>
        simp only [] at h
        rcases hro : resolveOffset (fpOf seed fp) off with er | offv
        · rw [hro] at h
          cases h
        · rw [hro] at h
          split at h
          case h_1 => rename_i heq; cases heq
          case h_2 =>
            rename_i offv2 heq
            injection heq with heq
            subst heq
            split at h
            case isTrue => cases h
            case isFalse hol =>
            split at h
            case isTrue hdm =>
              split at h
              case isTrue => cases h
              case isFalse hemp =>
                refine ⟨offv, not_ne_iff.mp hsh, rfl, not_ne_iff.mp hol, ?_, ?_⟩
                · cases hb : seed.data.isEmpty
                  · rfl
                  · exact absurd hb hemp
                · left
                  refine ⟨hdm, ?_, h⟩
                  cases hb : anyGT seed.data mask.data
                  · rfl
                  · exact absurd ⟨hdm, hb⟩ hdil
            case isFalse hdm =>
              split at h
              case isTrue hem =>
                split at h
                case isTrue => cases h
                case isFalse hemp =>
                  refine ⟨offv, not_ne_iff.mp hsh, rfl, not_ne_iff.mp hol, ?_, ?_⟩
                  · cases hb : seed.data.isEmpty
                    · rfl
                    · exact absurd hb hemp
                  · right
                    refine ⟨hem, ?_, h⟩
                    cases hb : anyLT seed.data mask.data
                    · rfl
                    · exact absurd ⟨hem, hb⟩ hero
              case isFalse hem => cases h

/-! ## Lemmas: initial cap ordering of the interleaved buffer -/

/-- C3: the rank transform is an order isomorphism with exact round trip for
both methods: value_map[rank[i]] recovers the original value at every
position, strictly smaller original values receive strictly smaller ranks in
the method's internal ordering (ascending on raw values for dilation,
ascending on negated values for erosion, where the strictness reverses
against the raw order), equal values receive equal ranks, and for erosion
the round trip holds after ranking the negated buffer and negating the value
map back. -/
theorem rank_order_exact (l : List ℤ) :
    (∀ i, i < l.length →
      getV (rank_order l).2 (getRN (rank_order l).1 i) = getV l i) ∧
    (∀ i j, i < l.length → j < l.length →
      (getV l i < getV l j →
        getRN (rank_order l).1 i < getRN (rank_order l).1 j) ∧
      (getV l i = getV l j →
        getRN (rank_order l).1 i = getRN (rank_order l).1 j)) ∧
    (∀ i, i < l.length →
      getV ((rank_order (l.map Neg.neg)).2.map Neg.neg)
        (getRN (rank_order (l.map Neg.neg)).1 i) = getV l i) ∧
    (∀ i j, i < l.length → j < l.length →
      (getV l i < getV l j →
        getRN (rank_order (l.map Neg.neg)).1 j
          < getRN (rank_order (l.map Neg.neg)).1 i) ∧
      (getV l i = getV l j →
        getRN (rank_order (l.map Neg.neg)).1 i
          = getRN (rank_order (l.map Neg.neg)).1 j)) := by
  have hr1 : (rank_order l).1 = l.map (rankOf l) := rfl
  have hr2 : (rank_order l).2 = valueMap l := rfl
  have hrn : ∀ i, i < l.length →
      getRN (rank_order l).1 i = rankOf l (getV l i) := by
    intro i hi
    rw [hr1, getRN_map_of_lt _ _ _ hi]
  have hlen' : (l.map Neg.neg).length = l.length := List.length_map _ _
  have hrn' : ∀ i, i < l.length →
      getRN (rank_order (l.map Neg.neg)).1 i
        = rankOf (l.map Neg.neg) (- getV l i) := by
    intro i hi
    have : (rank_order (l.map Neg.neg)).1 = (l.map Neg.neg).map
        (rankOf (l.map Neg.neg)) := rfl
    rw [this, getRN_map_of_lt _ _ _ (by omega), getV_map_neg]
  refine ⟨?_, ?_, ?_, ?_⟩
  · intro i hi
    rw [hrn i hi, hr2]
    exact getV_valueMap_rankOf l _ (getV_mem l i hi)
  · intro i j hi hj
    constructor
    · intro hlt
      rw [hrn i hi, hrn j hj]
      exact rankOf_lt_rankOf l _ _ (getV_mem l i hi) hlt
    · intro heq
      rw [hrn i hi, hrn j hj, heq]
  · intro i hi
    rw [hrn' i hi, getV_map_neg]
    have hm : - getV l i ∈ l.map Neg.neg := by
      rw [List.mem_map]
      exact ⟨getV l i, getV_mem l i hi, rfl⟩
    have : (rank_order (l.map Neg.neg)).2 = valueMap (l.map Neg.neg) := rfl
    rw [this, getV_valueMap_rankOf _ _ hm]
    omega
  · intro i j hi hj
    constructor
    · intro hlt
      rw [hrn' i hi, hrn' j hj]
      have hm : - getV l j ∈ l.map Neg.neg := by
        rw [List.mem_map]
        exact ⟨getV l j, getV_mem l j hj, rfl⟩
      exact rankOf_lt_rankOf _ _ _ hm (by omega)
    · intro heq
      rw [hrn' i hi, hrn' j hj, heq]

/-- Witness for C3 at a concrete buffer. -/
theorem rank_order_exact_witness :
    (0 : ℕ) < ([3, 1, 4, 1, 5] : List ℤ).length ∧
    getV (rank_order [3, 1, 4, 1, 5]).2
      (getRN (rank_order [3, 1, 4, 1, 5]).1 0) = getV [3, 1, 4, 1, 5] 0 :=
  ⟨by decide, (rank_order_exact [3, 1, 4, 1, 5]).1 0 (by decide)⟩

/-- C4: for every valid input, the returned array has exactly the shape of
the seed and the element type promoted from the dtypes of seed and mask. -/
theorem reconstruction_shape_dtype (seed mask : NDArr) (mth : String)
    (fp : Option NDArrB) (off : Option NDArrI) (out : NDArr)
    (h : reconstruction seed mask mth fp off = .ok out) :
    out.shape = seed.shape ∧ out.dtype = promote_types seed.dtype mask.dtype := by
  obtain ⟨offv, _, _, _, _, hbody⟩ := reconstruction_ok_inv _ _ _ _ _ _ h
  rcases hbody with ⟨_, _, hrb⟩ | ⟨_, _, hrb⟩ <;>
  · obtain ⟨_, hout⟩ := recBody_ok_inv _ _ _ _ _ _ _ hrb
    rw [hout]
    exact ⟨rfl, rfl⟩

/-- Witness for C4 at a concrete input (mixed dtypes, erosion). -/
theorem reconstruction_shape_dtype_witness :
    reconstruction ⟨[1], [5], DType.int8⟩ ⟨[1], [0], DType.int16⟩ "erosion"
        none none = .ok ⟨[1], [5], DType.int16⟩ ∧
    ([1] : List ℕ) = [1] ∧ DType.int16 = promote_types DType.int8 DType.int16 := by
  have h : reconstruction ⟨[1], [5], DType.int8⟩ ⟨[1], [0], DType.int16⟩
      "erosion" none none = .ok ⟨[1], [5], DType.int16⟩ := by rfl
  have h2 := reconstruction_shape_dtype ⟨[1], [5], DType.int8⟩
    ⟨[1], [0], DType.int16⟩ "erosion" none none ⟨[1], [5], DType.int16⟩ h
  exact ⟨h, h2.1, h2.2⟩

/-- C6 counterexample: on the legacy scikit-image (< 0.20) path the selected
index dtype is int32 regardless of the buffer length, and for a 1-D image of
2^30 - 1 pixels with the default footprint the buffer length 2^31 + 2 makes
-(buffer length) unrepresentable in 32 bits. -/
theorem signedIntBits_legacy_counterexample :
    reconISize ⟨[2 ^ 30 - 1], [], DType.float64⟩ (onesFootprint 1) = 2 ^ 31 + 2 ∧
    signedIntBits true (2 ^ 31 + 2) = 32 ∧
    ¬ (-((2 ^ 31 + 2 : ℕ) : ℤ) ≥ -(2 ^ (32 - 1))) := by
  refine ⟨by decide, by decide, by decide⟩

/-- C6 (amended): on the modern path (scikit-image ≥ 0.20) the selected
signed dtype always represents -(buffer length), for every buffer length a
numpy array can have (below 2^63); the legacy path pins int32 and violates
this once the buffer exceeds 2^31 entries. -/
theorem signedIntBits_modern_safe (isize : ℕ) (h : isize ≤ 2 ^ 63) :
    -((isize : ℕ) : ℤ) ≥ -(2 ^ (signedIntBits false isize - 1)) := by
  rw [signedIntBits]
  simp only [Bool.false_eq_true, if_false]
  rw [min_scalar_type_bits_neg]
  split
  · rename_i h1
    have : max 8 32 = 32 := by decide
    rw [this]
    omega
  · split
    · rename_i h2
      have : max 16 32 = 32 := by decide
      rw [this]
      omega
    · split
      · rename_i h3
        have : max 32 32 = 32 := by decide
        rw [this]
        omega
      · have : max 64 32 = 64 := by decide
        rw [this]
        have hb : ((2 : ℤ) ^ 63 : ℤ) ≤ 2 ^ (64 - 1) := by decide
        have : ((isize : ℕ) : ℤ) ≤ (2 : ℤ) ^ 63 := by
          calc ((isize : ℕ) : ℤ) ≤ ((2 ^ 63 : ℕ) : ℤ) := by exact_mod_cast h
            _ = (2 : ℤ) ^ 63 := by decide
        omega

/-- Witness for the amended C6 theorem at a concrete size. -/
theorem signedIntBits_modern_safe_witness :
    (2 ^ 40 : ℕ) ≤ 2 ^ 63 ∧
    -((2 ^ 40 : ℕ) : ℤ) ≥ -(2 ^ (signedIntBits false (2 ^ 40) - 1)) :=
  ⟨by decide, signedIntBits_modern_safe (2 ^ 40) (by decide)⟩

/-- C10: the caller's footprint array is unchanged when the footprint
preparation returns: the forced center clearing writes only through the
fresh allocation made by `astype(bool, copy=True)`, never through the
argument reference. -/
theorem setupFootprintHeap_frame (h : FpHeap) (a : ℕ) (nd : ℕ)
    (offv : List ℕ) (ha : a < h.arrays.length) :
    (setupFootprintHeap h (some a) nd offv).1.arrays.getD a ⟨[], []⟩
      = h.arrays.getD a ⟨[], []⟩ := by
  rw [setupFootprintHeap]
  simp only [heapAlloc, heapSet]
  rw [List.getD_eq_getElem _ _ (by rw [List.length_set, List.length_append]; simp; omega)]
  rw [List.getElem_set_ne (by omega)]
  rw [List.getElem_append_left ha]
  rw [List.getD_eq_getElem _ _ ha]

/-- Witness for C10 at a concrete heap. -/
theorem setupFootprintHeap_frame_witness :
    (0 : ℕ) < (FpHeap.mk [⟨[3], [true, true, true]⟩]).arrays.length ∧
    (setupFootprintHeap ⟨[⟨[3], [true, true, true]⟩]⟩ (some 0) 1 [1]).1.arrays.getD
        0 ⟨[], []⟩
      = (FpHeap.mk [⟨[3], [true, true, true]⟩]).arrays.getD 0 ⟨[], []⟩ :=
  ⟨by decide, setupFootprintHeap_frame ⟨[⟨[3], [true, true, true]⟩]⟩ 0 1 [1]
    (by decide)⟩

/-! ## Lemmas: classifying the validation errors -/

theorem checkRows_error_eq (L : List (List ℤ × ℕ)) (e : RecError)
    (h : checkRows L = .error e) : e = .ambiguousOffset := by
  induction L generalizing e with
  | nil => rw [checkRows] at h; cases h
  | cons rd t ih =>
      obtain ⟨row, d⟩ := rd
      match hrow : row with
      | [] =>
          simp only [checkRows, Except.error.injEq] at h
          exact h.symm
      | [e1] =>
          rw [checkRows] at h
          rcases hrec : checkRows t with er | bs2
          · rw [hrec] at h
            simp only [Except.map] at h
            injection h with h
            subst h
            exact ih er hrec
          · rw [hrec] at h
            simp only [Except.map] at h
            cases h
      | e1 :: e2 :: rest =>
          simp only [checkRows, Except.error.injEq] at h
          exact h.symm

theorem resolveOffset_error_cases (fp : NDArrB) (off : Option NDArrI)
    (e : RecError) (h : resolveOffset fp off = .error e) :
    e = .invalidFootprint ∨ e = .invalidOffset ∨ e = .ambiguousOffset := by
  match off with
  | none =>
      rw [resolveOffset] at h
      split at h
      · cases h
      · injection h with h
        exact Or.inl h.symm
  | some o =>
      rw [resolveOffset] at h
      split at h
      case isTrue =>
        injection h with h
        exact Or.inr (Or.inl h.symm)
      case isFalse =>
        split at h
        case h_1 =>
          rename_i er heq
          injection h with h
          subst h
          exact Or.inr (Or.inr (checkRows_error_eq _ _ heq))
        case h_2 =>
          split at h
          · cases h
          · injection h with h
            exact Or.inr (Or.inl h.symm)

/-- C7: a seed/mask shape disagreement fails with the shape mismatch error
before any other stage runs, for all other argument values; with equal
shapes that error is never produced. -/
theorem reconstruction_shape_mismatch (seed mask : NDArr) (mth : String)
    (fp : Option NDArrB) (off : Option NDArrI) :
    (seed.shape ≠ mask.shape →
      reconstruction seed mask mth fp off = .error .shapeMismatch) ∧
    (seed.shape = mask.shape →
      reconstruction seed mask mth fp off ≠ .error .shapeMismatch) := by
  constructor
  · intro hne
    rw [reconstruction, if_pos hne]
  · intro heq hcon
    rw [reconstruction, if_neg (not_ne_iff.mpr heq)] at hcon
    split at hcon
    · simp at hcon
    · split at hcon
      · simp at hcon
      · simp only [] at hcon
        rcases hro : resolveOffset (fpOf seed fp) off with er | offv
        · rw [hro] at hcon
          injection hcon with hcon
          rcases resolveOffset_error_cases _ _ _ hro with h1 | h1 | h1 <;>
            (rw [h1] at hcon; cases hcon)
        · rw [hro] at hcon
          split at hcon
          case h_1 => rename_i heq2; cases heq2
          case h_2 =>
            rename_i offv2 heq2
            injection heq2 with heq2
            subst heq2
            split at hcon
            · simp at hcon
            · split at hcon
              · split at hcon
                · simp at hcon
                · rw [recBody] at hcon
                  split at hcon
                  · simp at hcon
                  · cases hcon
              · split at hcon
                · split at hcon
                  · simp at hcon
                  · rw [recBody] at hcon
                    split at hcon
                    · simp at hcon
                    · cases hcon
                · simp at hcon

/-- Witness for C7 at concrete inputs (both directions). -/
theorem reconstruction_shape_mismatch_witness :
    reconstruction ⟨[2], [0, 0], DType.int8⟩ ⟨[3], [0, 0, 0], DType.int8⟩
      "dilation" none none = .error .shapeMismatch ∧
    reconstruction ⟨[1], [0], DType.int8⟩ ⟨[1], [0], DType.int8⟩
      "dilation" none none ≠ .error .shapeMismatch := by
  constructor
  · exact (reconstruction_shape_mismatch ⟨[2], [0, 0], DType.int8⟩
      ⟨[3], [0, 0, 0], DType.int8⟩ "dilation" none none).1 (by decide)
  · exact (reconstruction_shape_mismatch ⟨[1], [0], DType.int8⟩
      ⟨[1], [0], DType.int8⟩ "dilation" none none).2 rfl

theorem resolveOffset_some_all_false (fp : NDArrB) (o : NDArrI)
    (bs : List Bool) (hnd : ¬ o.shape.length ≠ fp.shape.length)
    (hcr : checkRows (List.zip (rowsOf o) fp.shape) = .ok bs)
    (hall : bs.all id = false) :
    resolveOffset fp (some o) = .error .invalidOffset := by
  rw [resolveOffset, if_neg hnd]
  split
  case h_1 =>
    rename_i er heq
    rw [hcr] at heq
    cases heq
  case h_2 =>
    rename_i bs2 heq
    rw [hcr] at heq
    injection heq with heq
    subst heq
    rw [if_neg (by rw [hall]; exact Bool.false_ne_true)]

/-- C8 counterexample: a natural 1-D offset vector [1, 1] lies strictly
inside the bounds of the 3x3 footprint on every axis, yet the call fails
with InvalidOffset, because the code compares `offset.ndim` (= 1) with
`footprint.ndim` (= 2). -/
theorem reconstruction_offset_inside_still_fails :
    (∀ k, k < 2 → 0 ≤ (([1, 1] : List ℤ).getD k 0) ∧
      (([1, 1] : List ℤ).getD k 0) < (([3, 3] : List ℕ).getD k 0 : ℤ)) ∧
    reconstruction ⟨[1, 1], [0], DType.int8⟩ ⟨[1, 1], [0], DType.int8⟩
      "dilation" (some ⟨[3, 3], List.replicate 9 true⟩)
      (some ⟨[2], [1, 1]⟩) = .error .invalidOffset := by
  constructor
  · decide
  · rfl

/-- C8 (amended): for every call that passes the shape assertion and the
seed/mask ordering scan — with an explicit offset, reconstruction fails
with InvalidOffset exactly when the offset array's ndim differs from the
footprint's, or the zipped bound comprehension evaluates (every compared
row a scalar) and some bound fails; in particular the geometric condition
"strictly inside the footprint bounds on every axis" alone is not enough,
the ndim equality is also required.  With no offset given, reconstruction
fails with InvalidFootprint exactly when some footprint axis extent is
even. -/
theorem reconstruction_offset_validation (seed mask : NDArr) (mth : String)
    (fp : Option NDArrB) (o : NDArrI)
    (hsh : seed.shape = mask.shape)
    (hd : ¬(mth = "dilation" ∧ anyGT seed.data mask.data = true))
    (he : ¬(mth = "erosion" ∧ anyLT seed.data mask.data = true)) :
    (reconstruction seed mask mth fp (some o) = .error .invalidOffset ↔
      (o.shape.length ≠ (fpOf seed fp).shape.length ∨
       (∃ bs, checkRows (List.zip (rowsOf o) (fpOf seed fp).shape) = .ok bs ∧
         bs.all id = false))) ∧
    (reconstruction seed mask mth fp none = .error .invalidFootprint ↔
      ¬ (fpOf seed fp).shape.all (fun d => d % 2 = 1) = true) := by
  refine ⟨?_, ?_⟩
  pick_goal 2
  · constructor
    · intro hcon hodd
      have hres : resolveOffset (fpOf seed fp) none
          = .ok ((fpOf seed fp).shape.map (fun d => d / 2)) := by
        rw [resolveOffset, if_pos hodd]
      rw [reconstruction, if_neg (not_ne_iff.mpr hsh), if_neg hd,
        if_neg he] at hcon
      dsimp only [] at hcon
      rw [hres] at hcon
      dsimp only [] at hcon
      split at hcon
      · simp at hcon
      · split at hcon
        · split at hcon
          · simp at hcon
          · rw [recBody] at hcon
            split at hcon
            · simp at hcon
            · simp at hcon
        · split at hcon
          · split at hcon
            · simp at hcon
            · rw [recBody] at hcon
              split at hcon
              · simp at hcon
              · simp at hcon
          · simp at hcon
    · intro hodd
      have hres : resolveOffset (fpOf seed fp) none
          = .error .invalidFootprint := by
        rw [resolveOffset, if_neg hodd]
      rw [reconstruction, if_neg (not_ne_iff.mpr hsh), if_neg hd, if_neg he]
      dsimp only []
      rw [hres]
  rw [reconstruction, if_neg (not_ne_iff.mpr hsh), if_neg hd, if_neg he]
  simp only []
  have hro : resolveOffset (fpOf seed fp) (some o)
      = resolveOffset (fpOf seed fp) (some o) := rfl
  constructor
  · intro hcon
    rcases hres : resolveOffset (fpOf seed fp) (some o) with er | offv
    · rw [hres] at hcon
      injection hcon with hcon
      subst hcon
      rw [resolveOffset] at hres
      split at hres
      case isTrue hnd => exact Or.inl hnd
      case isFalse hnd =>
        split at hres
        case h_1 =>
          rename_i er heq
          have := checkRows_error_eq _ _ heq
          subst this
          cases hres
        case h_2 =>
          rename_i bs heq
          split at hres
          case isTrue hall => cases hres
          case isFalse hall =>
            refine Or.inr ⟨bs, heq, ?_⟩
            cases hb : bs.all id
            · rfl
            · exact absurd hb hall
    · rw [hres] at hcon
      exfalso
      split at hcon
      case h_1 => rename_i heq2; cases heq2
      case h_2 =>
        rename_i offv2 heq2
        injection heq2 with heq2
        subst heq2
        split at hcon
        · simp at hcon
        · split at hcon
          · split at hcon
            · simp at hcon
            · rw [recBody] at hcon
              split at hcon
              · simp at hcon
              · cases hcon
          · split at hcon
            · split at hcon
              · simp at hcon
              · rw [recBody] at hcon
                split at hcon
                · simp at hcon
                · cases hcon
            · simp at hcon
  · intro hbad
    have hres : resolveOffset (fpOf seed fp) (some o) = .error .invalidOffset := by
      rcases hbad with hnd | ⟨bs, hcr, hall⟩
      · rw [resolveOffset, if_pos hnd]
      · by_cases hnd : o.shape.length ≠ (fpOf seed fp).shape.length
        · rw [resolveOffset, if_pos hnd]
        · exact resolveOffset_some_all_false _ _ bs hnd hcr hall
    rw [hres]

/-- Witness for the amended C8 theorem: an out-of-bounds scalar offset with
a 1-D footprint fails with InvalidOffset through the bound check, and with
no offset the default all-odd footprint never yields InvalidFootprint. -/
theorem reconstruction_offset_validation_witness :
    (⟨[1], [0], DType.int8⟩ : NDArr).shape = (⟨[1], [0], DType.int8⟩ : NDArr).shape ∧
    ((reconstruction ⟨[1], [0], DType.int8⟩ ⟨[1], [0], DType.int8⟩ "dilation"
        none (some ⟨[1], [5]⟩) = .error .invalidOffset ↔
      ((⟨[1], [5]⟩ : NDArrI).shape.length
          ≠ (fpOf ⟨[1], [0], DType.int8⟩ none).shape.length ∨
       (∃ bs, checkRows (List.zip (rowsOf ⟨[1], [5]⟩)
           (fpOf ⟨[1], [0], DType.int8⟩ none).shape) = .ok bs ∧
         bs.all id = false))) ∧
     (reconstruction ⟨[1], [0], DType.int8⟩ ⟨[1], [0], DType.int8⟩ "dilation"
        none none = .error .invalidFootprint ↔
      ¬ (fpOf (⟨[1], [0], DType.int8⟩ : NDArr) none).shape.all
        (fun d => d % 2 = 1) = true)) := by
  refine ⟨rfl, ?_⟩
  exact reconstruction_offset_validation ⟨[1], [0], DType.int8⟩
    ⟨[1], [0], DType.int8⟩ "dilation" none ⟨[1], [5]⟩ rfl
    (by decide) (by decide)

/-- C9: with an unrecognized method the seed/mask ordering precondition is
never checked (the InvalidSeedMask error cannot occur), and footprint/offset
validation runs before the method dispatch: an unrecognized method together
with an even-extent footprint and no offset fails with the footprint error,
not the method error. -/
theorem reconstruction_method_validation_order (seed mask : NDArr)
    (mth : String) (fp : Option NDArrB) (off : Option NDArrI)
    (hm1 : mth ≠ "dilation") (hm2 : mth ≠ "erosion") :
    reconstruction seed mask mth fp off ≠ .error .invalidSeedMask ∧
    (seed.shape = mask.shape → off = none →
      ¬ (fpOf seed fp).shape.all (fun d => d % 2 = 1) = true →
      reconstruction seed mask mth fp off = .error .invalidFootprint) := by
  constructor
  · intro hcon
    rw [reconstruction] at hcon
    split at hcon
    · simp at hcon
    · rw [if_neg (fun hc => hm1 hc.1), if_neg (fun hc => hm2 hc.1)] at hcon
      simp only [] at hcon
      rcases hro : resolveOffset (fpOf seed fp) off with er | offv
      · rw [hro] at hcon
        injection hcon with hcon
        rcases resolveOffset_error_cases _ _ _ hro with h1 | h1 | h1 <;>
          (rw [h1] at hcon; cases hcon)
      · rw [hro] at hcon
        split at hcon
        case h_1 => rename_i heq2; cases heq2
        case h_2 =>
          rename_i offv2 heq2
          injection heq2 with heq2
          subst heq2
          split at hcon
          · simp at hcon
          · simp at hcon
  · intro hsh hoffn hodd
    subst hoffn
    rw [reconstruction, if_neg (not_ne_iff.mpr hsh),
      if_neg (fun hc => hm1 hc.1), if_neg (fun hc => hm2 hc.1)]
    simp only []
    have hres : resolveOffset (fpOf seed fp) none = .error .invalidFootprint := by
      rw [resolveOffset, if_neg hodd]
    rw [hres]

/-- Witness for C9: method "foo" with an even-extent footprint and no offset
fails with the footprint error, and a seed exceeding the mask with method
"foo" does not produce the seed/mask error. -/
theorem reconstruction_method_validation_order_witness :
    reconstruction ⟨[1], [5], DType.int8⟩ ⟨[1], [0], DType.int8⟩ "foo"
      (some ⟨[2], [true, true]⟩) none ≠ .error .invalidSeedMask ∧
    reconstruction ⟨[1], [5], DType.int8⟩ ⟨[1], [0], DType.int8⟩ "foo"
      (some ⟨[2], [true, true]⟩) none = .error .invalidFootprint := by
  have h := reconstruction_method_validation_order ⟨[1], [5], DType.int8⟩
    ⟨[1], [0], DType.int8⟩ "foo" (some ⟨[2], [true, true]⟩) none
    (by decide) (by decide)
  exact ⟨h.1, h.2 rfl rfl (by decide)⟩


/-! ## Lemmas: the traversal list order -/

theorem afterL_cons (a : ℕ) (t : List ℕ) (x : ℕ) :
    afterL (a :: t) x = if a = x then headI t else afterL t x := by
  cases t with
  | nil => simp only [afterL, headI]; split <;> rfl
  | cons b t' => simp only [afterL, headI]

theorem afterL_not_mem (L : List ℕ) (x : ℕ) (h : x ∉ L) :
    afterL L x = -1 := by
  induction L with
  | nil => rfl
  | cons a t ih =>
      rw [afterL_cons,
        if_neg (fun hc => h (by rw [← hc]; exact List.mem_cons_self _ _))]
      exact ih (fun hc => h (List.mem_cons_of_mem _ hc))

theorem perm_insertAfterL (M : List ℕ) (l q : ℕ) :
    (insertAfterL M l q).Perm (q :: M) := by
  induction M with
  | nil => exact List.Perm.refl _
  | cons a t ih =>
      rw [insertAfterL]
      by_cases hal : a = l
      · rw [if_pos hal]
        exact List.Perm.swap q a t
      · rw [if_neg hal]
        exact (ih.cons a).trans (List.Perm.swap q a t)

theorem nodup_insertAfterL (M : List ℕ) (l q : ℕ) (hM : M.Nodup)
    (hq : q ∉ M) : (insertAfterL M l q).Nodup := by
  refine (List.Perm.nodup_iff (perm_insertAfterL M l q)).mpr ?_
  exact List.nodup_cons.mpr ⟨hq, hM⟩

theorem mkSetup_s0_next (seed mask : NDArr) (isDil : Bool) (fpc : NDArrB)
    (offv : List ℕ) (pad : ℤ) :
    (mkSetup seed mask isDil fpc offv pad).s0.next
      = (List.range (2 * (mkSetup seed mask isDil fpc offv pad).P)).map
          (fun x => afterL (mkSetup seed mask isDil fpc offv pad).sorted x) :=
  rfl

theorem mkSetup_s0_prev (seed mask : NDArr) (isDil : Bool) (fpc : NDArrB)
    (offv : List ℕ) (pad : ℤ) :
    (mkSetup seed mask isDil fpc offv pad).s0.prev
      = (List.range (2 * (mkSetup seed mask isDil fpc offv pad).P)).map
          (fun x => beforeL (mkSetup seed mask isDil fpc offv pad).sorted x) :=
  rfl

end GrayRec
